import Mathlib

/-!
# Verification of the string-casing utilities

A shallow embedding of the three case-conversion functions of this repository:

* `toKebabCase` from `src/chain_prompt.js`,
* `toCamelCase` and `toDotCase` from `src/refined_prompt.js`,
* the second `toCamelCase` from `src/unnamed/part_000` (embedded in the
  `FewShot` namespace, after the `few_shot_prompt.js` header comment of that
  file).

Strings are modelled as `List Char`.  JavaScript values that can reach these
functions are modelled by the inductive type `JSVal` (string, number, `null`,
boolean, object); thrown exceptions are modelled with `Except JSErr`.

Modelling notes, applying to every definition below:

* The `\s` regex class, `String.prototype.trim`, are modelled by the exact
  ECMAScript white-space set (`isJsWhitespace`).
* `toLowerCase`/`toUpperCase` are modelled as the ASCII case mappings
  (`lowerChar`/`upperChar`).  All character classes used by the source
  (`[A-Za-z0-9-]`, `[a-z0-9]`, …) are ASCII, and every claim below concerns
  ASCII data, so the model agrees with JavaScript on the relevant inputs.
* JavaScript numbers are modelled as integers (`Int`), converted to their
  decimal string form by `jsNumToString`, matching `String(n)` on integral
  values.
* A regex `replace` of runs of a character class by a single character is
  modelled by `replaceRuns`; deletion of a class (`replace(..., '')`) by
  `List.filter`; `split(...).filter(Boolean)` by `jsSplitFilter` (splitting
  character-wise and discarding empty segments produces exactly the same
  list as splitting on runs and discarding empty segments, and the source
  only ever observes the composite).
-/

namespace CaseConv

/-- The ECMAScript white-space set: the characters matched by the regex
class `\s` and removed by `String.prototype.trim`. -/
def isJsWhitespace (c : Char) : Bool :=
  let n := c.toNat
  n == 9 || n == 10 || n == 11 || n == 12 || n == 13 || n == 32 ||
  n == 160 || n == 5760 || (8192 ≤ n && n ≤ 8202) || n == 8232 ||
  n == 8233 || n == 8239 || n == 8287 || n == 12288 || n == 65279

/-- The regex class `[A-Z]`. -/
def isAsciiUpper (c : Char) : Bool := 65 ≤ c.toNat && c.toNat ≤ 90

/-- The regex class `[a-z]`. -/
def isAsciiLower (c : Char) : Bool := 97 ≤ c.toNat && c.toNat ≤ 122

/-- The regex class `[0-9]`. -/
def isAsciiDigit (c : Char) : Bool := 48 ≤ c.toNat && c.toNat ≤ 57

/-- The regex class `[A-Za-z]`. -/
def isAsciiLetter (c : Char) : Bool := isAsciiUpper c || isAsciiLower c

/-- The regex class `[A-Za-z0-9]`. -/
def isAsciiAlnum (c : Char) : Bool := isAsciiLetter c || isAsciiDigit c

/-- The regex class `[a-z0-9]` tested by `toKebabCase` on its
already-lowercased result. -/
def isLowerOrDigit (c : Char) : Bool := isAsciiLower c || isAsciiDigit c

/-- ASCII model of `String.prototype.toLowerCase` on a single character. -/
def lowerChar (c : Char) : Char :=
  if isAsciiUpper c then Char.ofNat (c.toNat + 32) else c

/-- ASCII model of `String.prototype.toUpperCase` on a single character. -/
def upperChar (c : Char) : Char :=
  if isAsciiLower c then Char.ofNat (c.toNat - 32) else c

/-- `str.toLowerCase()`. -/
def lowerAll (l : List Char) : List Char := l.map lowerChar

/-- `str.toUpperCase()`. -/
def upperAll (l : List Char) : List Char := l.map upperChar

/-- `str.trim()`: remove leading and trailing white space. -/
def jsTrim (l : List Char) : List Char :=
  ((l.dropWhile isJsWhitespace).reverse.dropWhile isJsWhitespace).reverse

/-- Worker for `replaceRuns`.  The boolean records whether the previous
character was part of a run of the class `p` (in which case further `p`
characters are absorbed into the replacement already emitted). -/
def replaceRunsGo (p : Char → Bool) (r : Char) : Bool → List Char → List Char
  | _, [] => []
  | inRun, c :: cs =>
    if p c then
      if inRun then replaceRunsGo p r true cs
      else r :: replaceRunsGo p r true cs
    else c :: replaceRunsGo p r false cs

/-- `str.replace(/CLASS+/g, r)`: replace every maximal run of characters of
the class `p` by the single character `r`. -/
def replaceRuns (p : Char → Bool) (r : Char) (l : List Char) : List Char :=
  replaceRunsGo p r false l

/-- `str.split(sep)` for a single-character separator class: cut at every
character of the class, keeping empty segments (JS keeps them too). -/
def splitCharwise (p : Char → Bool) : List Char → List (List Char)
  | [] => [[]]
  | c :: cs =>
    if p c then [] :: splitCharwise p cs
    else
      match splitCharwise p cs with
      | [] => [[c]]
      | w :: ws => (c :: w) :: ws

/-- `str.split(/CLASS+/).filter(Boolean)`: the non-empty segments between
characters of the class `p`.  Splitting character-wise and discarding empty
segments yields the same list as splitting on runs and discarding empty
segments, which is all the source observes. -/
def jsSplitFilter (p : Char → Bool) (l : List Char) : List (List Char) :=
  (splitCharwise p l).filter (fun w => !w.isEmpty)

/-- `parts.join('')`. -/
def concatAll (ws : List (List Char)) : List Char :=
  ws.foldr (fun w acc => w ++ acc) []

/-- `parts.join('.')`. -/
def joinDots : List (List Char) → List Char
  | [] => []
  | [w] => w
  | w :: ws => w ++ '.' :: joinDots ws

/-- A JavaScript value, as far as these functions can observe one. -/
inductive JSVal where
  | vstr (s : List Char)
  | vnum (n : Int)
  | vnull
  | vbool (b : Bool)
  | vobj
deriving DecidableEq

/-- A thrown JavaScript exception: a `TypeError` or a plain `Error`. -/
inductive JSErr where
  | typeError (msg : String)
  | genError (msg : String)
deriving DecidableEq

deriving instance DecidableEq for Except

/-- `String(n)` for an integral number. -/
def jsNumToString (n : Int) : List Char := (toString n).toList

/-- Does the computation end in a thrown `TypeError`? -/
def isTypeErr {α : Type} : Except JSErr α → Bool
  | .error (.typeError _) => true
  | _ => false

/-- Does the computation end in a thrown plain `Error`? -/
def isGenErr {α : Type} : Except JSErr α → Bool
  | .error (.genError _) => true
  | _ => false

/-! ## `src/chain_prompt.js` : `toKebabCase` -/

/-- The regex class `[A-Za-z0-9-]` kept by `toKebabCase` (the complement is
deleted by `kebab.replace(/[^A-Za-z0-9-]+/g, '')`). -/
def isKebabKeep (c : Char) : Bool := isAsciiAlnum c || c == '-'

/-- The normalization pipeline of `toKebabCase` on the trimmed input:
white-space runs to single hyphens, characters outside `[A-Za-z0-9-]`
deleted, hyphen runs collapsed, then lowercased. -/
def kebabPipeline (t : List Char) : List Char :=
  lowerAll (replaceRuns (fun c => c == '-') '-'
    ((replaceRuns isJsWhitespace '-' t).filter isKebabKeep))

/-- `toKebabCase` from `src/chain_prompt.js`.  `.ok none` models returning
`null`, `.ok (some s)` returning the string `s`. -/
def toKebabCase : JSVal → Except JSErr (Option (List Char))
  | .vnull => .ok none
  | .vstr s =>
    let trimmed := jsTrim s
    if trimmed.isEmpty then .ok (some [])
    else
      let kebab := kebabPipeline trimmed
      if kebab.any isLowerOrDigit then .ok (some kebab)
      else .error (.genError "Input cannot be converted to a valid kebab-case string")
  | _ => .error (.typeError "Input must be a string or null")

/-! ## `src/refined_prompt.js` : `toCamelCase` and `toDotCase` -/

/-- The regex class `[\s_-]` of separator characters used by `toCamelCase`. -/
def isSepChar (c : Char) : Bool := isJsWhitespace c || c == '_' || c == '-'

/-- `lower.charAt(0).toUpperCase() + lower.slice(1)`: uppercase the first
character, keep the rest. -/
def capFirst : List Char → List Char
  | [] => []
  | c :: t => upperChar c :: t

/-- The per-segment transform of `toCamelCase`: lowercase the whole segment,
then uppercase its first character. -/
def capSeg (seg : List Char) : List Char := capFirst (lowerAll seg)

/-- The body of `toCamelCase` on an already-coerced string input. -/
def camelString (s : List Char) : List Char :=
  let str := jsTrim s
  if str.isEmpty then []
  else if !(str.any isSepChar) then
    if str.any isAsciiLetter && (str == upperAll str) then lowerAll str else str
  else
    match jsSplitFilter isSepChar str with
    | [] => []
    | first :: rest => lowerAll first ++ concatAll (rest.map capSeg)

/-- `toCamelCase` from `src/refined_prompt.js`. -/
def toCamelCase : JSVal → Except JSErr (List Char)
  | .vnum n => .ok (camelString (jsNumToString n))
  | .vstr s => .ok (camelString s)
  | _ => .error (.typeError "toCamelCase expects a string or number")

/-- The regex class `[A-Za-z0-9.]` kept intact by `toDotCase` (runs of the
complement are replaced by a single dot). -/
def isDotKeep (c : Char) : Bool := isAsciiAlnum c || c == '.'

/-- `s.replace(/([a-z0-9])([A-Z])/g, '$1.$2')`: the global regex
substitution inserting a dot at camelCase boundaries.  After a match the
scan resumes after the second character of the match. -/
def insertDots : List Char → List Char
  | [] => []
  | [c] => [c]
  | c1 :: c2 :: cs =>
    if isLowerOrDigit c1 && isAsciiUpper c2 then
      c1 :: '.' :: c2 :: insertDots cs
    else c1 :: insertDots (c2 :: cs)

/-- `s.replace(/^\.+|\.+$/g, '')`: strip every leading and trailing dot. -/
def stripDots (l : List Char) : List Char :=
  ((l.dropWhile (fun c => c == '.')).reverse.dropWhile (fun c => c == '.')).reverse

/-- Steps 3–5 of `toDotCase` (`s2` and `s3` of the source): replace runs
outside `[A-Za-z0-9.]` by a single dot, collapse dot runs, strip leading
and trailing dots. -/
def dotStageThree (s1 : List Char) : List Char :=
  stripDots (replaceRuns (fun c => c == '.') '.'
    (replaceRuns (fun c => !isDotKeep c) '.' s1))

/-- The stages of `toDotCase` that follow the camelCase-boundary insertion:
replace runs outside `[A-Za-z0-9.]` by a dot, collapse dot runs, strip
leading/trailing dots, then split on dots, drop empty segments, lowercase
each segment and rejoin with dots. -/
def dotAfterInsert (s1 : List Char) : List Char :=
  let s3 := dotStageThree s1
  if s3.isEmpty then []
  else
    joinDots (((splitCharwise (fun c => c == '.') s3).filter
      (fun w => !w.isEmpty)).map lowerAll)

/-- The body of `toDotCase` on an already-coerced string input. -/
def dotString (s0 : List Char) : List Char :=
  let str := jsTrim s0
  if str.isEmpty then []
  else dotAfterInsert (insertDots str)

/-- `toDotCase` from `src/refined_prompt.js`. -/
def toDotCase : JSVal → Except JSErr (List Char)
  | .vnum n => .ok (dotString (jsNumToString n))
  | .vstr s => .ok (dotString s)
  | _ => .error (.typeError "toDotCase expects a string or number")

/-! ## `src/unnamed/part_000` : the few-shot `toCamelCase` -/

namespace FewShot

/-- The per-segment transform of the few-shot `toCamelCase`:
`p.charAt(0).toUpperCase() + p.slice(1).toLowerCase()`. -/
def seg : List Char → List Char
  | [] => []
  | c :: t => upperChar c :: lowerAll t

/-- `toCamelCase` from `src/unnamed/part_000`: returns `''` on non-string
input, splits the trimmed string on runs of non-alphanumeric characters. -/
def toCamelCase : JSVal → List Char
  | .vstr s =>
    match jsSplitFilter (fun c => !isAsciiAlnum c) (jsTrim s) with
    | [] => []
    | first :: rest => lowerAll first ++ concatAll (rest.map seg)
  | _ => []

end FewShot

/-! ## Spec-side definitions -/

/-- Modelled from the spec (§4.1 step 4): split the string on runs of
one-or-more separator characters and discard empty segments, i.e. the list
of maximal runs of non-separator characters, in order. -/
def wordsBy (p : Char → Bool) : List Char → List (List Char)
  | [] => []
  | c :: cs =>
    if p c then wordsBy p cs
    else
      match cs with
      | [] => [[c]]
      | d :: _ =>
        if p d then [c] :: wordsBy p cs
        else
          match wordsBy p cs with
          | [] => [[c]]
          | w :: ws => (c :: w) :: ws

/-- Modelled from the spec (§4.1 step 4): lowercase the first segment,
lowercase-then-capitalize every other segment, and concatenate. -/
def specCamel : List (List Char) → List Char
  | [] => []
  | w :: ws => lowerAll w ++ concatAll (ws.map capSeg)

/-- Modelled from the spec (§4.2 step 2): insert a dot between every
adjacent pair (lowercase-or-digit, uppercase), scanning pair by pair. -/
def pairwiseDots : List Char → List Char
  | [] => []
  | [c] => [c]
  | c1 :: c2 :: cs =>
    if isLowerOrDigit c1 && isAsciiUpper c2 then
      c1 :: '.' :: pairwiseDots (c2 :: cs)
    else c1 :: pairwiseDots (c2 :: cs)

/-- The output alphabet claimed for `toKebabCase`: lowercase ASCII letters,
ASCII digits and hyphens. -/
def isKebabLower (c : Char) : Bool := isAsciiLower c || isAsciiDigit c || c == '-'

/-- The output alphabet claimed for `toDotCase`: lowercase ASCII letters,
ASCII digits and dots. -/
def isDotLower (c : Char) : Bool := isAsciiLower c || isAsciiDigit c || c == '.'

/-! ## Character-level lemmas -/

theorem toNat_ofNat_lt {n : Nat} (h : n < 55296) : (Char.ofNat n).toNat = n := by
  have hv : n.isValidChar := Or.inl h
  rw [Char.ofNat, dif_pos hv]
  rfl

theorem char_eq_of_toNat_eq {c d : Char} (h : c.toNat = d.toNat) : c = d := by
  have hc := Char.ofNat_toNat c
  rw [h, Char.ofNat_toNat d] at hc
  exact hc.symm

theorem isAsciiUpper_iff {c : Char} :
    isAsciiUpper c = true ↔ 65 ≤ c.toNat ∧ c.toNat ≤ 90 := by
  simp [isAsciiUpper]

theorem isAsciiLower_iff {c : Char} :
    isAsciiLower c = true ↔ 97 ≤ c.toNat ∧ c.toNat ≤ 122 := by
  simp [isAsciiLower]

theorem isAsciiDigit_iff {c : Char} :
    isAsciiDigit c = true ↔ 48 ≤ c.toNat ∧ c.toNat ≤ 57 := by
  simp [isAsciiDigit]

theorem lowerChar_toNat_of_upper {c : Char} (h : isAsciiUpper c = true) :
    (lowerChar c).toNat = c.toNat + 32 := by
  have h' := isAsciiUpper_iff.mp h
  rw [lowerChar, if_pos h, toNat_ofNat_lt (by omega)]

theorem lowerChar_of_not_upper {c : Char} (h : isAsciiUpper c = false) :
    lowerChar c = c := by
  simp [lowerChar, h]

theorem upperChar_toNat_of_lower {c : Char} (h : isAsciiLower c = true) :
    (upperChar c).toNat = c.toNat - 32 := by
  have h' := isAsciiLower_iff.mp h
  rw [upperChar, if_pos h, toNat_ofNat_lt (by omega)]

theorem upperChar_of_not_lower {c : Char} (h : isAsciiLower c = false) :
    upperChar c = c := by
  simp [upperChar, h]

theorem upperChar_lowerChar (c : Char) : upperChar (lowerChar c) = upperChar c := by
  cases h : isAsciiUpper c with
  | false => rw [lowerChar_of_not_upper h]
  | true =>
    have hn := isAsciiUpper_iff.mp h
    have h1 : (lowerChar c).toNat = c.toNat + 32 := lowerChar_toNat_of_upper h
    have h2 : isAsciiLower (lowerChar c) = true := isAsciiLower_iff.mpr (by omega)
    have h3 : isAsciiLower c = false := by
      cases h3 : isAsciiLower c with
      | false => rfl
      | true => have := isAsciiLower_iff.mp h3; omega
    rw [upperChar_of_not_lower h3]
    apply char_eq_of_toNat_eq
    rw [upperChar_toNat_of_lower h2, h1]
    omega

theorem lowerChar_isLowerOrDigit {c : Char} (h : isAsciiAlnum c = true) :
    isLowerOrDigit (lowerChar c) = true := by
  cases hu : isAsciiUpper c with
  | true =>
    have hn := isAsciiUpper_iff.mp hu
    have h1 : (lowerChar c).toNat = c.toNat + 32 := lowerChar_toNat_of_upper hu
    simp only [isLowerOrDigit, Bool.or_eq_true]
    exact Or.inl (isAsciiLower_iff.mpr (by omega))
  | false =>
    rw [lowerChar_of_not_upper hu]
    simp only [isAsciiAlnum, isAsciiLetter, Bool.or_eq_true] at h
    simp only [isLowerOrDigit, Bool.or_eq_true]
    rcases h with (h | h) | h
    · rw [h] at hu; cases hu
    · exact Or.inl h
    · exact Or.inr h

theorem lowerChar_toNat_ne {c : Char} {m : Nat} (hm : 97 ≤ m → False)
    (h : c.toNat ≠ m) : (lowerChar c).toNat ≠ m := by
  cases hu : isAsciiUpper c with
  | true =>
    have hn := isAsciiUpper_iff.mp hu
    have hm' : m < 97 := Nat.lt_of_not_le fun hle => hm hle
    rw [lowerChar_toNat_of_upper hu]
    omega
  | false => rw [lowerChar_of_not_upper hu]; exact h

/-! ## `dropWhile` / `jsTrim` lemmas -/

theorem dropWhile_eq_self_of {p : Char → Bool} {l : List Char}
    (h : ∀ c ∈ l, p c = false) : l.dropWhile p = l := by
  cases l with
  | nil => rfl
  | cons c cs =>
    rw [List.dropWhile_cons, if_neg]
    simp [h c (List.mem_cons_self c cs)]

theorem mem_of_mem_dropWhile {p : Char → Bool} {c : Char} :
    ∀ {l : List Char}, c ∈ l.dropWhile p → c ∈ l := by
  intro l
  induction l with
  | nil => simp
  | cons d ds ih =>
    rw [List.dropWhile_cons]
    intro h
    by_cases hd : p d = true
    · rw [if_pos hd] at h
      exact List.mem_cons_of_mem _ (ih h)
    · rw [if_neg hd] at h
      exact h

theorem jsTrim_eq_self {l : List Char}
    (h : ∀ c ∈ l, isJsWhitespace c = false) : jsTrim l = l := by
  unfold jsTrim
  rw [dropWhile_eq_self_of h, dropWhile_eq_self_of, List.reverse_reverse]
  intro c hc
  exact h c (List.mem_reverse.mp hc)

theorem mem_jsTrim {c : Char} {l : List Char} (h : c ∈ jsTrim l) : c ∈ l := by
  unfold jsTrim at h
  have h1 := List.mem_reverse.mp h
  have h2 := mem_of_mem_dropWhile h1
  have h3 := List.mem_reverse.mp h2
  exact mem_of_mem_dropWhile h3

/-! ## `replaceRuns` lemmas -/

theorem mem_replaceRunsGo {p : Char → Bool} {r : Char} :
    ∀ {l : List Char} {b : Bool} {c : Char}, c ∈ replaceRunsGo p r b l →
      c = r ∨ (c ∈ l ∧ p c = false) := by
  intro l
  induction l with
  | nil => intro b c h; simp [replaceRunsGo] at h
  | cons d ds ih =>
    intro b c h
    by_cases hd : p d = true
    · cases b with
      | true =>
        simp only [replaceRunsGo, if_pos hd, if_pos rfl] at h
        rcases ih h with h' | ⟨hmem, hc⟩
        · exact Or.inl h'
        · exact Or.inr ⟨List.mem_cons_of_mem _ hmem, hc⟩
      | false =>
        simp only [replaceRunsGo, if_pos hd] at h
        rw [if_neg (by simp)] at h
        rcases List.mem_cons.mp h with h' | h'
        · exact Or.inl h'
        · rcases ih h' with h'' | ⟨hmem, hc⟩
          · exact Or.inl h''
          · exact Or.inr ⟨List.mem_cons_of_mem _ hmem, hc⟩
    · simp only [replaceRunsGo, if_neg hd] at h
      rcases List.mem_cons.mp h with h' | h'
      · subst h'
        exact Or.inr ⟨List.mem_cons_self _ _, by simpa using hd⟩
      · rcases ih h' with h'' | ⟨hmem, hc⟩
        · exact Or.inl h''
        · exact Or.inr ⟨List.mem_cons_of_mem _ hmem, hc⟩

theorem replaceRunsGo_true_head {p : Char → Bool} {r : Char} :
    ∀ {l c t}, replaceRunsGo p r true l = c :: t → p c = false := by
  intro l
  induction l with
  | nil => intro c t h; simp [replaceRunsGo] at h
  | cons d ds ih =>
    intro c t h
    by_cases hd : p d = true
    · simp only [replaceRunsGo, if_pos hd, if_pos rfl] at h
      exact ih h
    · simp only [replaceRunsGo, if_neg hd] at h
      rw [List.cons_eq_cons] at h
      rw [← h.1]
      simpa using hd

theorem chain'_replaceRunsGo (p : Char → Bool) (r : Char) :
    ∀ (l : List Char) (b : Bool),
      List.Chain' (fun a b' => ¬(p a = true ∧ p b' = true)) (replaceRunsGo p r b l) := by
  intro l
  induction l with
  | nil => intro b; simp [replaceRunsGo]
  | cons d ds ih =>
    intro b
    by_cases hd : p d = true
    · cases b with
      | true =>
        simp only [replaceRunsGo, if_pos hd, if_pos rfl]
        exact ih true
      | false =>
        simp only [replaceRunsGo, if_pos hd]
        rw [if_neg (by simp)]
        rw [List.chain'_cons']
        refine ⟨?_, ih true⟩
        intro y hy hcon
        cases hgo : replaceRunsGo p r true ds with
        | nil => rw [hgo] at hy; cases hy
        | cons y' t =>
          rw [hgo] at hy
          simp only [List.head?_cons, Option.mem_def, Option.some_inj] at hy
          subst hy
          exact absurd hcon.2 (by simp [replaceRunsGo_true_head hgo])
    · simp only [replaceRunsGo, if_neg hd]
      rw [List.chain'_cons']
      refine ⟨?_, ih false⟩
      intro y _ hcon
      exact hd hcon.1

/-! ## `splitCharwise` lemmas -/

theorem splitCharwise_ne_nil {p : Char → Bool} : ∀ {l}, splitCharwise p l ≠ [] := by
  intro l
  induction l with
  | nil => simp [splitCharwise]
  | cons c cs ih =>
    simp only [splitCharwise]
    by_cases hc : p c = true
    · simp [hc]
    · rw [if_neg hc]
      cases h : splitCharwise p cs with
      | nil => simp
      | cons w ws => simp

theorem mem_of_mem_splitCharwise {p : Char → Bool} :
    ∀ {l w c}, w ∈ splitCharwise p l → c ∈ w → c ∈ l := by
  intro l
  induction l with
  | nil =>
    intro w c hw hc
    simp [splitCharwise] at hw
    subst hw
    cases hc
  | cons d ds ih =>
    intro w c hw hc
    by_cases hd : p d = true
    · simp only [splitCharwise, if_pos hd] at hw
      rcases List.mem_cons.mp hw with h' | h'
      · subst h'; cases hc
      · exact List.mem_cons_of_mem _ (ih h' hc)
    · simp only [splitCharwise, if_neg hd] at hw
      cases hS : splitCharwise p ds with
      | nil => exact absurd hS splitCharwise_ne_nil
      | cons w' ws' =>
        rw [hS] at hw
        rcases List.mem_cons.mp hw with h' | h'
        · subst h'
          rcases List.mem_cons.mp hc with h'' | h''
          · subst h''; exact List.mem_cons_self _ _
          · refine List.mem_cons_of_mem _ (ih ?_ h'')
            rw [hS]
            exact List.mem_cons_self _ _
        · refine List.mem_cons_of_mem _ (ih ?_ hc)
          rw [hS]
          exact List.mem_cons_of_mem _ h'

theorem sep_free_splitCharwise {p : Char → Bool} :
    ∀ {l w c}, w ∈ splitCharwise p l → c ∈ w → p c = false := by
  intro l
  induction l with
  | nil =>
    intro w c hw hc
    simp [splitCharwise] at hw
    subst hw
    cases hc
  | cons d ds ih =>
    intro w c hw hc
    by_cases hd : p d = true
    · simp only [splitCharwise, if_pos hd] at hw
      rcases List.mem_cons.mp hw with h' | h'
      · subst h'; cases hc
      · exact ih h' hc
    · simp only [splitCharwise, if_neg hd] at hw
      cases hS : splitCharwise p ds with
      | nil => exact absurd hS splitCharwise_ne_nil
      | cons w' ws' =>
        rw [hS] at hw
        rcases List.mem_cons.mp hw with h' | h'
        · subst h'
          rcases List.mem_cons.mp hc with h'' | h''
          · subst h''; simpa using hd
          · refine ih ?_ h''
            rw [hS]
            exact List.mem_cons_self _ _
        · refine ih ?_ hc
          rw [hS]
          exact List.mem_cons_of_mem _ h'

theorem splitCharwise_congr {p q : Char → Bool} :
    ∀ {l}, (∀ c ∈ l, p c = q c) → splitCharwise p l = splitCharwise q l := by
  intro l
  induction l with
  | nil => intro _; rfl
  | cons d ds ih =>
    intro h
    have hd : p d = q d := h d (List.mem_cons_self _ _)
    have hds : ∀ c ∈ ds, p c = q c := fun c hc => h c (List.mem_cons_of_mem _ hc)
    simp only [splitCharwise, hd, ih hds]

theorem splitCharwise_all_sep {p : Char → Bool} :
    ∀ {l}, (∀ c ∈ l, p c = true) → ∀ w ∈ splitCharwise p l, w = [] := by
  intro l
  induction l with
  | nil =>
    intro _ w hw
    simpa [splitCharwise] using hw
  | cons d ds ih =>
    intro h w hw
    have hd : p d = true := h d (List.mem_cons_self _ _)
    simp only [splitCharwise, if_pos hd] at hw
    rcases List.mem_cons.mp hw with h' | h'
    · exact h'
    · exact ih (fun c hc => h c (List.mem_cons_of_mem _ hc)) w h'

theorem jsSplitFilter_all_sep {p : Char → Bool} {l : List Char}
    (h : ∀ c ∈ l, p c = true) : jsSplitFilter p l = [] := by
  unfold jsSplitFilter
  rw [List.filter_eq_nil_iff]
  intro w hw
  have := splitCharwise_all_sep h w hw
  subst this
  simp

/-! ## `wordsBy` step lemmas and the split equivalence -/

theorem wordsBy_cons_sep {p : Char → Bool} {c : Char} {cs : List Char}
    (hc : p c = true) : wordsBy p (c :: cs) = wordsBy p cs := by
  simp [wordsBy, hc]

theorem wordsBy_singleton {p : Char → Bool} {c : Char} (hc : p c = false) :
    wordsBy p [c] = [[c]] := by
  simp [wordsBy, hc]

theorem wordsBy_cons_cons_sep {p : Char → Bool} {c d : Char} {ts : List Char}
    (hc : p c = false) (hd : p d = true) :
    wordsBy p (c :: d :: ts) = [c] :: wordsBy p (d :: ts) := by
  simp [wordsBy, hc, hd]

theorem wordsBy_cons_nonsep {p : Char → Bool} {c d : Char} {ts w : List Char}
    {ws : List (List Char)} (hc : p c = false) (hd : p d = false)
    (hW : wordsBy p (d :: ts) = (d :: w) :: ws) :
    wordsBy p (c :: d :: ts) = (c :: d :: w) :: ws := by
  simp only [wordsBy, hd, Bool.false_eq_true, if_false] at hW
  simp only [wordsBy, hc, hd, Bool.false_eq_true, if_false]
  rw [hW]

/-- `str.split(/CLASS+/).filter(Boolean)` computes exactly the maximal runs
of non-`p` characters, i.e. the spec's "split on runs of one-or-more
separator characters, discard empty segments". -/
theorem jsSplitFilter_eq_wordsBy (p : Char → Bool) :
    ∀ l, jsSplitFilter p l = wordsBy p l := by
  intro l
  induction l with
  | nil => rfl
  | cons c cs ih =>
    unfold jsSplitFilter at ih ⊢
    by_cases hc' : p c = true
    · simp only [splitCharwise, if_pos hc', List.filter_cons]
      rw [if_neg (by simp)]
      rw [ih, wordsBy_cons_sep hc']
    · have hc : p c = false := by simpa using hc'
      simp only [splitCharwise, if_neg hc']
      cases cs with
      | nil => simp [splitCharwise, wordsBy_singleton hc]
      | cons d ts =>
        by_cases hd' : p d = true
        · have hSd : splitCharwise p (d :: ts) = [] :: splitCharwise p ts := by
            simp [splitCharwise, hd']
          rw [hSd]
          rw [hSd, List.filter_cons] at ih
          rw [if_neg (by simp)] at ih
          rw [List.filter_cons, if_pos (by simp)]
          rw [ih, wordsBy_cons_cons_sep hc hd']
        · have hd : p d = false := by simpa using hd'
          cases hSt : splitCharwise p ts with
          | nil => exact absurd hSt splitCharwise_ne_nil
          | cons w' ws' =>
            have hSd : splitCharwise p (d :: ts) = (d :: w') :: ws' := by
              simp [splitCharwise, hd', hSt]
            rw [hSd]
            rw [hSd, List.filter_cons, if_pos (by simp)] at ih
            rw [List.filter_cons, if_pos (by simp)]
            rw [wordsBy_cons_nonsep hc hd ih.symm]

/-! ## `insertDots` lemmas -/

theorem not_lowerOrDigit_of_upper {c : Char} (h : isAsciiUpper c = true) :
    isLowerOrDigit c = false := by
  have hn := isAsciiUpper_iff.mp h
  cases hl : isLowerOrDigit c with
  | false => rfl
  | true =>
    simp only [isLowerOrDigit, Bool.or_eq_true] at hl
    rcases hl with hl | hl
    · have := isAsciiLower_iff.mp hl; omega
    · have := isAsciiDigit_iff.mp hl; omega

theorem pairwiseDots_cons_of_not_first {c : Char} {cs : List Char}
    (h : isLowerOrDigit c = false) :
    pairwiseDots (c :: cs) = c :: pairwiseDots cs := by
  cases cs with
  | nil => rfl
  | cons d ds => simp [pairwiseDots, h]

/-- The non-overlapping global regex substitution (`insertDots`, which
resumes scanning after the matched pair) agrees with the naive pair-by-pair
insertion (`pairwiseDots`): an uppercase character can never start a match,
so skipping it loses nothing. -/
theorem insertDots_eq_pairwiseDots : ∀ l, insertDots l = pairwiseDots l := by
  have key : ∀ n l, l.length ≤ n → insertDots l = pairwiseDots l := by
    intro n
    induction n with
    | zero =>
      intro l hl
      have : l = [] := List.length_eq_zero.mp (Nat.le_zero.mp hl)
      subst this
      rfl
    | succ n ih =>
      intro l hl
      rcases l with _ | ⟨c1, _ | ⟨c2, cs⟩⟩
      · rfl
      · rfl
      · simp only [List.length_cons] at hl
        by_cases hb : (isLowerOrDigit c1 && isAsciiUpper c2) = true
        · have hup : isAsciiUpper c2 = true := by
            rw [Bool.and_eq_true] at hb
            exact hb.2
          simp only [insertDots, pairwiseDots, if_pos hb]
          rw [pairwiseDots_cons_of_not_first (not_lowerOrDigit_of_upper hup)]
          rw [ih cs (by omega)]
        · simp only [insertDots, pairwiseDots, if_neg hb]
          rw [ih (c2 :: cs) (by simp; omega)]
  exact fun l => key l.length l le_rfl

theorem insertDots_eq_self : ∀ {l : List Char},
    (∀ c ∈ l, isAsciiUpper c = false) → insertDots l = l := by
  have key : ∀ n l, l.length ≤ n → (∀ c ∈ l, isAsciiUpper c = false) →
      insertDots l = l := by
    intro n
    induction n with
    | zero =>
      intro l hl _
      have : l = [] := List.length_eq_zero.mp (Nat.le_zero.mp hl)
      subst this
      rfl
    | succ n ih =>
      intro l hl h
      rcases l with _ | ⟨c1, _ | ⟨c2, cs⟩⟩
      · rfl
      · rfl
      · simp only [List.length_cons] at hl
        have h2 : isAsciiUpper c2 = false :=
          h c2 (List.mem_cons_of_mem _ (List.mem_cons_self _ _))
        have hb : (isLowerOrDigit c1 && isAsciiUpper c2) = false := by
          simp [h2]
        simp only [insertDots, hb]
        rw [if_neg (by simp)]
        rw [ih (c2 :: cs) (by simp; omega)
          (fun c hc => h c (List.mem_cons_of_mem _ hc))]
  exact fun {l} h => key l.length l le_rfl h

/-! ## Output-alphabet and chain lemmas -/

theorem dotLower_of_lowerOrDigit {c : Char} (h : isLowerOrDigit c = true) :
    isDotLower c = true := by
  simp only [isLowerOrDigit, Bool.or_eq_true] at h
  simp only [isDotLower, Bool.or_eq_true]
  rcases h with h | h
  · exact Or.inl (Or.inl h)
  · exact Or.inl (Or.inr h)

theorem ne_dot_of_lowerOrDigit {c : Char} (h : isLowerOrDigit c = true) :
    c ≠ '.' := by
  intro he
  subst he
  have h46 : ('.' : Char).toNat = 46 := rfl
  simp only [isLowerOrDigit, Bool.or_eq_true] at h
  rcases h with h | h
  · have := isAsciiLower_iff.mp h
    omega
  · have := isAsciiDigit_iff.mp h
    omega

theorem ne_dash_of_toNat_ne {c : Char} (h : c ≠ '-') : c.toNat ≠ 45 := by
  intro he
  exact h (char_eq_of_toNat_eq (by rw [he]; rfl))

theorem lowerChar_dash {c : Char} (h : lowerChar c = '-') : c = '-' := by
  by_contra hne
  have h1 : (lowerChar c).toNat ≠ 45 :=
    lowerChar_toNat_ne (by omega) (ne_dash_of_toNat_ne hne)
  exact h1 (by rw [h]; rfl)

theorem kebabLower_of_keep {c : Char} (h : isKebabKeep c = true) :
    isKebabLower (lowerChar c) = true := by
  cases hu : isAsciiUpper c with
  | true =>
    have hn := isAsciiUpper_iff.mp hu
    have h1 : (lowerChar c).toNat = c.toNat + 32 := lowerChar_toNat_of_upper hu
    simp only [isKebabLower, Bool.or_eq_true]
    exact Or.inl (Or.inl (isAsciiLower_iff.mpr (by omega)))
  | false =>
    rw [lowerChar_of_not_upper hu]
    simp only [isKebabKeep, isAsciiAlnum, isAsciiLetter, Bool.or_eq_true] at h
    simp only [isKebabLower, Bool.or_eq_true]
    rcases h with ((h | h) | h) | h
    · rw [h] at hu; cases hu
    · exact Or.inl (Or.inl h)
    · exact Or.inl (Or.inr h)
    · exact Or.inr h

theorem chain'_of_not_mem {x : Char} {l : List Char} (h : ∀ c ∈ l, c ≠ x) :
    List.Chain' (fun a b => ¬(a = x ∧ b = x)) l := by
  induction l with
  | nil => simp
  | cons c cs ih =>
    rw [List.chain'_cons']
    refine ⟨?_, ih fun c' hc' => h c' (List.mem_cons_of_mem _ hc')⟩
    intro y _ hcon
    exact h c (List.mem_cons_self _ _) hcon.1

theorem mem_stripDots {c : Char} {l : List Char} (h : c ∈ stripDots l) : c ∈ l := by
  unfold stripDots at h
  have h1 := List.mem_reverse.mp h
  have h2 := mem_of_mem_dropWhile h1
  have h3 := List.mem_reverse.mp h2
  exact mem_of_mem_dropWhile h3

/-! ## `joinDots` well-formedness -/

theorem joinDots_ne_nil : ∀ {ws : List (List Char)}, ws ≠ [] →
    (∀ w ∈ ws, w ≠ []) → joinDots ws ≠ [] := by
  intro ws hne hw
  match ws with
  | [w] => exact hw w (List.mem_cons_self _ _)
  | w :: w' :: rest => simp [joinDots]

theorem head?_joinDots {w : List Char} {ws : List (List Char)} (hw : w ≠ []) :
    (joinDots (w :: ws)).head? = w.head? := by
  cases ws with
  | nil => rfl
  | cons w' ws' =>
    show (w ++ '.' :: joinDots (w' :: ws')).head? = w.head?
    rw [List.head?_append]
    cases w with
    | nil => exact absurd rfl hw
    | cons c t => simp

theorem joinDots_wf : ∀ ws : List (List Char),
    (∀ w ∈ ws, w ≠ [] ∧ ∀ c ∈ w, isLowerOrDigit c = true) →
    (∀ c ∈ joinDots ws, isDotLower c = true) ∧
    (joinDots ws).head? ≠ some '.' ∧
    (joinDots ws).getLast? ≠ some '.' ∧
    List.Chain' (fun a b => ¬(a = '.' ∧ b = '.')) (joinDots ws) := by
  intro ws
  induction ws with
  | nil => intro _; refine ⟨by simp [joinDots], by simp [joinDots], by simp [joinDots], by simp [joinDots]⟩
  | cons w tail ih =>
    intro h
    obtain ⟨hwne, hwc⟩ := h w (List.mem_cons_self _ _)
    have htail : ∀ w' ∈ tail, w' ≠ [] ∧ ∀ c ∈ w', isLowerOrDigit c = true :=
      fun w' hw' => h w' (List.mem_cons_of_mem _ hw')
    cases tail with
    | nil =>
      refine ⟨?_, ?_, ?_, ?_⟩
      · intro c hc
        exact dotLower_of_lowerOrDigit (hwc c hc)
      · intro hh
        have hm : '.' ∈ w := List.mem_of_mem_head? (by rw [show joinDots [w] = w from rfl] at hh; rw [hh]; rfl)
        exact ne_dot_of_lowerOrDigit (hwc _ hm) rfl
      · intro hh
        have hm : '.' ∈ w := List.mem_of_mem_getLast? (by rw [show joinDots [w] = w from rfl] at hh; rw [hh]; rfl)
        exact ne_dot_of_lowerOrDigit (hwc _ hm) rfl
      · exact chain'_of_not_mem fun c hc => ne_dot_of_lowerOrDigit (hwc c hc)
    | cons w' ws' =>
      obtain ⟨ihmem, ihhead, ihlast, ihchain⟩ := ih htail
      have hw'ne : w' ≠ [] := (htail w' (List.mem_cons_self _ _)).1
      have hJne : joinDots (w' :: ws') ≠ [] :=
        joinDots_ne_nil (by simp) (fun u hu => (htail u hu).1)
      have hJ : joinDots (w :: w' :: ws') = w ++ '.' :: joinDots (w' :: ws') := rfl
      rw [hJ]
      refine ⟨?_, ?_, ?_, ?_⟩
      · intro c hc
        rcases List.mem_append.mp hc with hc | hc
        · exact dotLower_of_lowerOrDigit (hwc c hc)
        · rcases List.mem_cons.mp hc with hc | hc
          · subst hc; simp [isDotLower]
          · exact ihmem c hc
      · rw [List.head?_append]
        cases hw : w with
        | nil => exact absurd hw hwne
        | cons c t =>
          simp only [List.head?_cons, Option.or_some]
          intro he
          have : c = '.' := by injection he
          subst this
          exact ne_dot_of_lowerOrDigit (hwc _ (by rw [hw]; exact List.mem_cons_self _ _)) rfl
      · rw [List.getLast?_append]
        cases hJ' : joinDots (w' :: ws') with
        | nil => exact absurd hJ' hJne
        | cons j js =>
          rw [List.getLast?_cons_cons]
          have : (j :: js).getLast? ≠ some '.' := by rw [← hJ']; exact ihlast
          cases hg : (j :: js).getLast? with
          | none => simp at hg
          | some x =>
            rw [hg] at this
            simp only [Option.or_some]
            exact this
      · rw [List.chain'_append]
        refine ⟨chain'_of_not_mem fun c hc => ne_dot_of_lowerOrDigit (hwc c hc), ?_, ?_⟩
        · rw [List.chain'_cons']
          refine ⟨?_, ihchain⟩
          intro y hy hcon
          rw [head?_joinDots hw'ne] at hy
          have hyw : y ∈ w' := List.mem_of_mem_head? hy
          exact ne_dot_of_lowerOrDigit ((htail w' (List.mem_cons_self _ _)).2 y hyw) hcon.2
        · intro x hx y hy hcon
          have hxw : x ∈ w := List.mem_of_mem_getLast? hx
          exact ne_dot_of_lowerOrDigit (hwc x hxw) hcon.1

/-! ## Separator / alphanumeric disjointness -/

theorem char_eq_iff_toNat {c d : Char} : c = d ↔ c.toNat = d.toNat :=
  ⟨fun h => by rw [h], char_eq_of_toNat_eq⟩

theorem isJsWhitespace_iff {c : Char} : isJsWhitespace c = true ↔
    (c.toNat = 9 ∨ c.toNat = 10 ∨ c.toNat = 11 ∨ c.toNat = 12 ∨
     c.toNat = 13 ∨ c.toNat = 32 ∨ c.toNat = 160 ∨ c.toNat = 5760 ∨
     (8192 ≤ c.toNat ∧ c.toNat ≤ 8202) ∨ c.toNat = 8232 ∨ c.toNat = 8233 ∨
     c.toNat = 8239 ∨ c.toNat = 8287 ∨ c.toNat = 12288 ∨ c.toNat = 65279) := by
  simp only [isJsWhitespace, Bool.or_eq_true, Bool.and_eq_true, beq_iff_eq,
    decide_eq_true_eq]
  tauto

theorem isAsciiAlnum_iff {c : Char} : isAsciiAlnum c = true ↔
    ((65 ≤ c.toNat ∧ c.toNat ≤ 90) ∨ (97 ≤ c.toNat ∧ c.toNat ≤ 122) ∨
     (48 ≤ c.toNat ∧ c.toNat ≤ 57)) := by
  simp only [isAsciiAlnum, isAsciiLetter, Bool.or_eq_true,
    isAsciiUpper_iff, isAsciiLower_iff, isAsciiDigit_iff]
  tauto

theorem isSepChar_iff {c : Char} : isSepChar c = true ↔
    (isJsWhitespace c = true ∨ c.toNat = 95 ∨ c.toNat = 45) := by
  simp only [isSepChar, Bool.or_eq_true, beq_iff_eq]
  constructor
  · rintro ((h | h) | h)
    · exact Or.inl h
    · exact Or.inr (Or.inl (by rw [h]; rfl))
    · exact Or.inr (Or.inr (by rw [h]; rfl))
  · rintro (h | h | h)
    · exact Or.inl (Or.inl h)
    · exact Or.inl (Or.inr (char_eq_iff_toNat.mpr (by rw [h]; rfl)))
    · exact Or.inr (char_eq_iff_toNat.mpr (by rw [h]; rfl))

theorem not_sep_of_alnum {c : Char} (ha : isAsciiAlnum c = true) :
    isSepChar c = false := by
  cases hs : isSepChar c with
  | false => rfl
  | true =>
    exfalso
    have h3 := isAsciiAlnum_iff.mp ha
    rcases isSepChar_iff.mp hs with h1 | h1 | h1
    · have h2 := isJsWhitespace_iff.mp h1
      omega
    · omega
    · omega

theorem not_alnum_of_sep {c : Char} (hs : isSepChar c = true) :
    isAsciiAlnum c = false := by
  cases ha : isAsciiAlnum c with
  | false => rfl
  | true => rw [not_sep_of_alnum ha] at hs; cases hs

theorem not_upper_of_not_alnum {c : Char} (h : isAsciiAlnum c = false) :
    isAsciiUpper c = false := by
  cases hu : isAsciiUpper c with
  | false => rfl
  | true =>
    have : isAsciiAlnum c = true := by
      simp only [isAsciiAlnum, isAsciiLetter, hu, Bool.true_or]
    rw [this] at h
    cases h

/-! ## All-separator runs -/

theorem dropWhile_all_true {p : Char → Bool} {l : List Char}
    (h : ∀ c ∈ l, p c = true) : l.dropWhile p = [] := by
  induction l with
  | nil => rfl
  | cons c cs ih =>
    rw [List.dropWhile_cons, if_pos (h c (List.mem_cons_self _ _))]
    exact ih fun c' hc' => h c' (List.mem_cons_of_mem _ hc')

theorem stripDots_all_dots {l : List Char} (h : ∀ c ∈ l, c = '.') :
    stripDots l = [] := by
  unfold stripDots
  have h1 : l.dropWhile (fun c => c == '.') = [] :=
    dropWhile_all_true fun c hc => by rw [h c hc]; rfl
  rw [h1]
  rfl

/-! ## The two per-segment transforms agree -/

theorem capSeg_eq_fewShotSeg : ∀ w : List Char, capSeg w = FewShot.seg w := by
  intro w
  cases w with
  | nil => rfl
  | cons c t =>
    show capFirst (lowerAll (c :: t)) = upperChar c :: lowerAll t
    rw [lowerAll, List.map_cons]
    show upperChar (lowerChar c) :: List.map lowerChar t = upperChar c :: lowerAll t
    rw [upperChar_lowerChar]
    rfl

/-! ## Claim theorems -/

/-- C9: `toCamelCase` and `toDotCase` accept a number by first converting
it to its decimal string form (`toCamelCase(123) = '123'`,
`toDotCase(2021) = '2021'`), and both throw a `TypeError`, surfaced
directly to the caller, on every input that is neither a string nor a
number (booleans, objects, `null`). -/
theorem claim_C9_number_coercion :
    (∀ n : Int, toCamelCase (.vnum n) = toCamelCase (.vstr (jsNumToString n)) ∧
      toDotCase (.vnum n) = toDotCase (.vstr (jsNumToString n))) ∧
    toCamelCase (.vnum 123) = .ok "123".toList ∧
    toDotCase (.vnum 2021) = .ok "2021".toList ∧
    ∀ v : JSVal, (∀ s, v ≠ .vstr s) → (∀ n, v ≠ .vnum n) →
      isTypeErr (toCamelCase v) = true ∧ isTypeErr (toDotCase v) = true := by
  refine ⟨fun n => ⟨rfl, rfl⟩, by decide, by decide, ?_⟩
  intro v hs hn
  cases v with
  | vstr s => exact absurd rfl (hs s)
  | vnum n => exact absurd rfl (hn n)
  | vnull => exact ⟨rfl, rfl⟩
  | vbool b => exact ⟨rfl, rfl⟩
  | vobj => exact ⟨rfl, rfl⟩

theorem claim_C9_witness :
    isTypeErr (toCamelCase .vnull) = true ∧ isTypeErr (toDotCase .vnull) = true :=
  claim_C9_number_coercion.2.2.2 .vnull (fun _ h => JSVal.noConfusion h)
    (fun _ h => JSVal.noConfusion h)

/-- C8: applying `toCamelCase` to its own output `y` is the identity
whenever `y` contains no separator character and is not an all-uppercase
string containing a letter. -/
theorem claim_C8_idempotent (v : JSVal) (y : List Char)
    (h : toCamelCase v = .ok y) (h1 : y.any isSepChar = false)
    (h2 : ¬(y.any isAsciiLetter = true ∧ y = upperAll y)) :
    toCamelCase (.vstr y) = .ok y := by
  have hnws : ∀ c ∈ y, isJsWhitespace c = false := by
    intro c hc
    cases hw : isJsWhitespace c with
    | false => rfl
    | true =>
      have hy : y.any isSepChar = true :=
        List.any_eq_true.mpr ⟨c, hc, by simp [isSepChar, hw]⟩
      rw [h1] at hy
      cases hy
  show Except.ok (camelString y) = Except.ok y
  have hform : camelString y =
      (if (jsTrim y).isEmpty then []
       else if !((jsTrim y).any isSepChar) then
         (if (jsTrim y).any isAsciiLetter && (jsTrim y == upperAll (jsTrim y))
          then lowerAll (jsTrim y) else jsTrim y)
       else
         match jsSplitFilter isSepChar (jsTrim y) with
         | [] => []
         | first :: rest => lowerAll first ++ concatAll (rest.map capSeg)) := rfl
  rw [hform, jsTrim_eq_self hnws]
  cases y with
  | nil => rfl
  | cons c t =>
    rw [if_neg (by simp)]
    rw [if_pos (by rw [h1]; rfl)]
    have hcond :
        ¬(((c :: t).any isAsciiLetter && ((c :: t) == upperAll (c :: t))) = true) := by
      intro hcon
      rw [Bool.and_eq_true] at hcon
      exact h2 ⟨hcon.1, by simpa using hcon.2⟩
    rw [if_neg hcond]

theorem claim_C8_witness :
    toCamelCase (.vstr "first name".toList) = .ok "firstName".toList ∧
    toCamelCase (.vstr "firstName".toList) = .ok "firstName".toList :=
  ⟨by decide,
   claim_C8_idempotent (.vstr "first name".toList) "firstName".toList
     (by decide) (by decide) (by decide)⟩

/-- C4: when the trimmed input is non-empty and contains no separator,
`toCamelCase` returns the lowercase form if the string contains an ASCII
letter and equals its own uppercase form, and otherwise returns the
trimmed string unchanged. -/
theorem claim_C4_no_separator (s : List Char)
    (h1 : jsTrim s ≠ []) (h2 : (jsTrim s).any isSepChar = false) :
    (((jsTrim s).any isAsciiLetter = true ∧ jsTrim s = upperAll (jsTrim s)) →
      toCamelCase (.vstr s) = .ok (lowerAll (jsTrim s))) ∧
    (¬((jsTrim s).any isAsciiLetter = true ∧ jsTrim s = upperAll (jsTrim s)) →
      toCamelCase (.vstr s) = .ok (jsTrim s)) := by
  have hform : camelString s =
      (if (jsTrim s).isEmpty then []
       else if !((jsTrim s).any isSepChar) then
         (if (jsTrim s).any isAsciiLetter && (jsTrim s == upperAll (jsTrim s))
          then lowerAll (jsTrim s) else jsTrim s)
       else
         match jsSplitFilter isSepChar (jsTrim s) with
         | [] => []
         | first :: rest => lowerAll first ++ concatAll (rest.map capSeg)) := rfl
  have hemp : ¬((jsTrim s).isEmpty = true) := by
    intro hh
    exact h1 (List.isEmpty_iff.mp hh)
  constructor
  · intro hcond
    show Except.ok (camelString s) = _
    rw [hform]
    rw [if_neg hemp]
    rw [if_pos (by rw [h2]; rfl)]
    rw [if_pos (by rw [Bool.and_eq_true]
                   exact ⟨hcond.1, beq_iff_eq.mpr hcond.2⟩)]
  · intro hcond
    show Except.ok (camelString s) = _
    rw [hform]
    rw [if_neg hemp]
    rw [if_pos (by rw [h2]; rfl)]
    rw [if_neg (fun hcon => by
      rw [Bool.and_eq_true] at hcon
      exact hcond ⟨hcon.1, beq_iff_eq.mp hcon.2⟩)]

theorem claim_C4_witness :
    toCamelCase (.vstr "SCREAM".toList) = .ok "scream".toList ∧
    toCamelCase (.vstr "alreadyCamel".toList) = .ok "alreadyCamel".toList :=
  ⟨((claim_C4_no_separator "SCREAM".toList (by decide) (by decide)).1
      (by decide)).trans (by decide),
   ((claim_C4_no_separator "alreadyCamel".toList (by decide) (by decide)).2
      (by decide)).trans (by decide)⟩

/-- C6: `toDotCase` first inserts a dot at every boundary where a
lowercase letter or digit is immediately followed by an uppercase letter —
a single left-to-right pass over the trimmed string, equivalent pair by
pair with no re-scanning — and only afterwards applies punctuation
normalization and lowercasing; `toDotCase('firstName') = 'first.name'`. -/
theorem claim_C6_boundary_insertion :
    (∀ s : List Char,
      toDotCase (.vstr s) = .ok (dotAfterInsert (pairwiseDots (jsTrim s)))) ∧
    toDotCase (.vstr "firstName".toList) = .ok "first.name".toList := by
  constructor
  · intro s
    show Except.ok (dotString s) = _
    congr 1
    show (if (jsTrim s).isEmpty then [] else dotAfterInsert (insertDots (jsTrim s)))
      = dotAfterInsert (pairwiseDots (jsTrim s))
    by_cases hemp : (jsTrim s).isEmpty = true
    · rw [if_pos hemp, List.isEmpty_iff.mp hemp]
      rfl
    · rw [if_neg hemp, insertDots_eq_pairwiseDots]
  · decide

/-- C3: `toKebabCase` returns `null` exactly on `null`, throws a
`TypeError` exactly on non-null non-string inputs, and on a string whose
trimmed form is non-empty it throws a plain error exactly when the
normalized result contains no lowercase ASCII letter and no digit; in
every other case it returns a string. -/
theorem claim_C3_kebab_contract (v : JSVal) :
    (toKebabCase v = .ok none ↔ v = .vnull) ∧
    (isTypeErr (toKebabCase v) = true ↔ (v ≠ .vnull ∧ ∀ s, v ≠ .vstr s)) ∧
    (∀ s, v = .vstr s → jsTrim s ≠ [] →
      (isGenErr (toKebabCase v) = true ↔
        (kebabPipeline (jsTrim s)).any isLowerOrDigit = false)) ∧
    (∀ s, v = .vstr s →
      (jsTrim s = [] ∨ (kebabPipeline (jsTrim s)).any isLowerOrDigit = true) →
      ∃ r, toKebabCase v = .ok (some r)) := by
  cases v with
  | vnull =>
    refine ⟨⟨fun _ => rfl, fun _ => rfl⟩, ?_, ?_, ?_⟩
    · exact ⟨fun h => Bool.noConfusion h, fun h => absurd rfl h.1⟩
    · intro s hs; exact absurd hs (fun hh => JSVal.noConfusion hh)
    · intro s hs; exact absurd hs (fun hh => JSVal.noConfusion hh)
  | vnum n =>
    refine ⟨⟨fun h => Except.noConfusion h, fun h => JSVal.noConfusion h⟩,
      ⟨fun _ => ⟨fun h => JSVal.noConfusion h, fun _ h => JSVal.noConfusion h⟩,
       fun _ => rfl⟩, ?_, ?_⟩
    · intro s hs; exact absurd hs (fun hh => JSVal.noConfusion hh)
    · intro s hs; exact absurd hs (fun hh => JSVal.noConfusion hh)
  | vbool b =>
    refine ⟨⟨fun h => Except.noConfusion h, fun h => JSVal.noConfusion h⟩,
      ⟨fun _ => ⟨fun h => JSVal.noConfusion h, fun _ h => JSVal.noConfusion h⟩,
       fun _ => rfl⟩, ?_, ?_⟩
    · intro s hs; exact absurd hs (fun hh => JSVal.noConfusion hh)
    · intro s hs; exact absurd hs (fun hh => JSVal.noConfusion hh)
  | vobj =>
    refine ⟨⟨fun h => Except.noConfusion h, fun h => JSVal.noConfusion h⟩,
      ⟨fun _ => ⟨fun h => JSVal.noConfusion h, fun _ h => JSVal.noConfusion h⟩,
       fun _ => rfl⟩, ?_, ?_⟩
    · intro s hs; exact absurd hs (fun hh => JSVal.noConfusion hh)
    · intro s hs; exact absurd hs (fun hh => JSVal.noConfusion hh)
  | vstr s =>
    have hcase : toKebabCase (.vstr s) =
        (if (jsTrim s).isEmpty then .ok (some [])
         else if (kebabPipeline (jsTrim s)).any isLowerOrDigit then
           .ok (some (kebabPipeline (jsTrim s)))
         else .error
           (.genError "Input cannot be converted to a valid kebab-case string")) := rfl
    refine ⟨?_, ?_, ?_, ?_⟩
    · constructor
      · intro h
        rw [hcase] at h
        by_cases h1 : (jsTrim s).isEmpty = true
        · rw [if_pos h1] at h
          exact Option.noConfusion (Except.ok.inj h)
        · rw [if_neg h1] at h
          by_cases h2 : (kebabPipeline (jsTrim s)).any isLowerOrDigit = true
          · rw [if_pos h2] at h
            exact Option.noConfusion (Except.ok.inj h)
          · rw [if_neg h2] at h
            exact Except.noConfusion h
      · intro h
        exact absurd h (fun hh => JSVal.noConfusion hh)
    · have hTE : isTypeErr (toKebabCase (.vstr s)) = false := by
        rw [hcase]
        by_cases h1 : (jsTrim s).isEmpty = true
        · rw [if_pos h1]; rfl
        · rw [if_neg h1]
          by_cases h2 : (kebabPipeline (jsTrim s)).any isLowerOrDigit = true
          · rw [if_pos h2]; rfl
          · rw [if_neg h2]; rfl
      rw [hTE]
      exact ⟨fun h => Bool.noConfusion h, fun h => absurd rfl (h.2 s)⟩
    · intro s' hs' htrim
      have hss : s = s' := JSVal.vstr.inj hs'
      subst hss
      have hemp : ¬((jsTrim s).isEmpty = true) := fun hh => htrim (List.isEmpty_iff.mp hh)
      constructor
      · intro hg
        cases hany : (kebabPipeline (jsTrim s)).any isLowerOrDigit with
        | false => rfl
        | true =>
          rw [hcase, if_neg hemp, if_pos hany] at hg
          exact Bool.noConfusion hg
      · intro hany
        rw [hcase, if_neg hemp, if_neg (by rw [hany]; exact fun hh => Bool.noConfusion hh)]
        rfl
    · intro s' hs' hcond
      have hss : s = s' := JSVal.vstr.inj hs'
      subst hss
      by_cases hemp : (jsTrim s).isEmpty = true
      · exact ⟨[], by rw [hcase, if_pos hemp]⟩
      · rcases hcond with hcond | hcond
        · exact absurd (by rw [hcond]; rfl) hemp
        · exact ⟨kebabPipeline (jsTrim s), by rw [hcase, if_neg hemp, if_pos hcond]⟩

theorem claim_C3_witness : isGenErr (toKebabCase (.vstr "!!!".toList)) = true :=
  ((claim_C3_kebab_contract (.vstr "!!!".toList)).2.2.1 "!!!".toList rfl
    (by decide)).mpr (by decide)

/-- C2: when the trimmed input is non-empty and contains a separator,
`toCamelCase` splits the trimmed string on runs of separator characters,
discards empty segments, lowercases the first segment, lowercases and
capitalizes every other segment, and concatenates them in order. -/
theorem claim_C2_camel_split (s : List Char)
    (h1 : jsTrim s ≠ []) (h2 : (jsTrim s).any isSepChar = true) :
    toCamelCase (.vstr s) = .ok (specCamel (wordsBy isSepChar (jsTrim s))) := by
  show Except.ok (camelString s) = _
  congr 1
  have hform : camelString s =
      (if (jsTrim s).isEmpty then []
       else if !((jsTrim s).any isSepChar) then
         (if (jsTrim s).any isAsciiLetter && (jsTrim s == upperAll (jsTrim s))
          then lowerAll (jsTrim s) else jsTrim s)
       else
         match jsSplitFilter isSepChar (jsTrim s) with
         | [] => []
         | first :: rest => lowerAll first ++ concatAll (rest.map capSeg)) := rfl
  rw [hform]
  rw [if_neg (fun hh => h1 (List.isEmpty_iff.mp hh))]
  rw [if_neg (by rw [h2]; exact fun hh => Bool.noConfusion hh)]
  rw [← jsSplitFilter_eq_wordsBy]
  cases hS : jsSplitFilter isSepChar (jsTrim s) with
  | nil => rfl
  | cons w ws => rfl

theorem claim_C2_witness :
    toCamelCase (.vstr "SCREEN_NAME".toList) =
      .ok (specCamel (wordsBy isSepChar (jsTrim "SCREEN_NAME".toList))) ∧
    specCamel (wordsBy isSepChar (jsTrim "SCREEN_NAME".toList)) = "screenName".toList :=
  ⟨claim_C2_camel_split "SCREEN_NAME".toList (by decide) (by decide), by decide⟩

/-- C10 is false as stated: the two `toCamelCase` implementations disagree
on `'alreadyCamel'` — the refined one preserves it, the few-shot one
lowercases it. -/
theorem claim_C10_cex :
    toCamelCase (.vstr "alreadyCamel".toList) = .ok "alreadyCamel".toList ∧
    FewShot.toCamelCase (.vstr "alreadyCamel".toList) = "alreadycamel".toList ∧
    "alreadyCamel".toList ≠ "alreadycamel".toList :=
  ⟨by decide, by decide, by decide⟩

/-- C10 (amended): the two `toCamelCase` implementations agree on every
string consisting only of ASCII alphanumerics and separator characters
(whitespace, underscore, hyphen) whose trimmed form contains at least one
separator. -/
theorem claim_C10_impls_agree (s : List Char)
    (hchars : ∀ c ∈ s, isAsciiAlnum c = true ∨ isSepChar c = true)
    (hsep : (jsTrim s).any isSepChar = true) :
    toCamelCase (.vstr s) = .ok (FewShot.toCamelCase (.vstr s)) := by
  show Except.ok (camelString s) = _
  congr 1
  have hne : jsTrim s ≠ [] := by
    intro h
    rw [h] at hsep
    cases hsep
  have hform : camelString s =
      (if (jsTrim s).isEmpty then []
       else if !((jsTrim s).any isSepChar) then
         (if (jsTrim s).any isAsciiLetter && (jsTrim s == upperAll (jsTrim s))
          then lowerAll (jsTrim s) else jsTrim s)
       else
         match jsSplitFilter isSepChar (jsTrim s) with
         | [] => []
         | first :: rest => lowerAll first ++ concatAll (rest.map capSeg)) := rfl
  have hFew : FewShot.toCamelCase (.vstr s) =
      (match jsSplitFilter (fun c => !isAsciiAlnum c) (jsTrim s) with
       | [] => []
       | first :: rest => lowerAll first ++ concatAll (rest.map FewShot.seg)) := rfl
  rw [hform, hFew]
  rw [if_neg (fun hh => hne (List.isEmpty_iff.mp hh))]
  rw [if_neg (by rw [hsep]; exact fun hh => Bool.noConfusion hh)]
  have hpred : ∀ c ∈ jsTrim s, isSepChar c = (fun c => !isAsciiAlnum c) c := by
    intro c hc
    show isSepChar c = !isAsciiAlnum c
    rcases hchars c (mem_jsTrim hc) with h | h
    · rw [not_sep_of_alnum h, h]; rfl
    · rw [h, not_alnum_of_sep h]; rfl
  have hsplit : jsSplitFilter isSepChar (jsTrim s) =
      jsSplitFilter (fun c => !isAsciiAlnum c) (jsTrim s) := by
    unfold jsSplitFilter
    rw [splitCharwise_congr hpred]
  rw [← hsplit]
  have hmap : capSeg = FewShot.seg := funext capSeg_eq_fewShotSeg
  rw [hmap]

theorem claim_C10_witness :
    toCamelCase (.vstr "SCREEN_NAME".toList) =
      .ok (FewShot.toCamelCase (.vstr "SCREEN_NAME".toList)) ∧
    FewShot.toCamelCase (.vstr "SCREEN_NAME".toList) = "screenName".toList :=
  ⟨claim_C10_impls_agree "SCREEN_NAME".toList (by decide) (by decide), by decide⟩

/-- Every character of the input that is not cut by the split survives in
some segment of `splitCharwise`. -/
theorem splitCharwise_cover {p : Char → Bool} :
    ∀ {l c}, c ∈ l → p c = false → ∃ w ∈ splitCharwise p l, c ∈ w := by
  intro l
  induction l with
  | nil => intro c hc _; cases hc
  | cons d ds ih =>
    intro c hc hp
    rcases List.mem_cons.mp hc with hceq | hcmem
    · subst hceq
      cases hS : splitCharwise p ds with
      | nil => exact absurd hS splitCharwise_ne_nil
      | cons w' ws' =>
        have hsc : splitCharwise p (c :: ds) = (c :: w') :: ws' := by
          simp [splitCharwise, hp, hS]
        exact ⟨c :: w', by rw [hsc]; exact List.mem_cons_self _ _,
          List.mem_cons_self _ _⟩
    · obtain ⟨w, hwmem, hcw⟩ := ih hcmem hp
      by_cases hd : p d = true
      · have hsc : splitCharwise p (d :: ds) = [] :: splitCharwise p ds := by
          simp [splitCharwise, hd]
        exact ⟨w, by rw [hsc]; exact List.mem_cons_of_mem _ hwmem, hcw⟩
      · have hdf : p d = false := by simpa using hd
        cases hS : splitCharwise p ds with
        | nil => exact absurd hS splitCharwise_ne_nil
        | cons w' ws' =>
          have hsc : splitCharwise p (d :: ds) = (d :: w') :: ws' := by
            simp [splitCharwise, hdf, hS]
          rw [hS] at hwmem
          rcases List.mem_cons.mp hwmem with hw1 | hw2
          · subst hw1
            exact ⟨d :: w, by rw [hsc]; exact List.mem_cons_self _ _,
              List.mem_cons_of_mem _ hcw⟩
          · exact ⟨w, by rw [hsc]; exact List.mem_cons_of_mem _ hw2, hcw⟩

/-- If the input has a character outside the separator class, the split
keeps at least one (non-empty) segment. -/
theorem jsSplitFilter_ne_nil_of_mem {p : Char → Bool} {l : List Char} {c : Char}
    (hc : c ∈ l) (hp : p c = false) : jsSplitFilter p l ≠ [] := by
  obtain ⟨w, hwmem, hcw⟩ := splitCharwise_cover hc hp
  have hwne : (!w.isEmpty) = true := by
    cases w with
    | nil => cases hcw
    | cons a t => rfl
  exact List.ne_nil_of_mem (List.mem_filter.mpr ⟨hwmem, hwne⟩)

/-- C5 is false as stated: on `'!!!'` (punctuation only, no letters or
digits) `toCamelCase` returns `'!!!'` unchanged — `'!'` is not a separator,
so the no-separator branch returns the string — rather than the empty
string the claim requires. -/
theorem claim_C5_cex :
    toCamelCase (.vstr "!!!".toList) = .ok "!!!".toList ∧
    "!!!".toList ≠ [] ∧
    "!!!".toList.all (fun c => !isAsciiAlnum c) = true :=
  ⟨by decide, by decide, by decide⟩

/-- C5 (amended): on a non-empty string of hyphens and/or punctuation (no
alphanumerics, no whitespace), `toKebabCase` throws an error and
`toDotCase` returns the empty string; `toCamelCase` returns the empty
string exactly when every character is an underscore or hyphen (on
`'!!!'` it returns `'!!!'` unchanged, and on `'!-!'` it returns `'!!'`). -/
theorem claim_C5_punct_only (s : List Char) (hne : s ≠ [])
    (hpunct : ∀ c ∈ s, isAsciiAlnum c = false ∧ isJsWhitespace c = false) :
    isGenErr (toKebabCase (.vstr s)) = true ∧
    toDotCase (.vstr s) = .ok [] ∧
    (toCamelCase (.vstr s) = .ok [] ↔ ∀ c ∈ s, c = '_' ∨ c = '-') := by
  have htr : jsTrim s = s := jsTrim_eq_self fun c hc => (hpunct c hc).2
  have hempf : ¬(s.isEmpty = true) := fun hh => hne (List.isEmpty_iff.mp hh)
  refine ⟨?_, ?_, ?_⟩
  · have hcase : toKebabCase (.vstr s) =
        (if (jsTrim s).isEmpty then .ok (some [])
         else if (kebabPipeline (jsTrim s)).any isLowerOrDigit then
           .ok (some (kebabPipeline (jsTrim s)))
         else .error
           (.genError "Input cannot be converted to a valid kebab-case string")) := rfl
    have hchars : ∀ c ∈ kebabPipeline s, c = '-' := by
      intro c hc
      unfold kebabPipeline lowerAll at hc
      rcases List.mem_map.mp hc with ⟨c0, hc0, hlow⟩
      have hdash : c0 = '-' := by
        rcases mem_replaceRunsGo hc0 with h0 | ⟨h0m, _⟩
        · exact h0
        · have h1m := List.mem_filter.mp h0m
          have hkeep : isKebabKeep c0 = true := h1m.2
          rcases mem_replaceRunsGo h1m.1 with h1 | ⟨h1mem, _⟩
          · exact h1
          · have halnum : isAsciiAlnum c0 = false := (hpunct c0 h1mem).1
            simp only [isKebabKeep, Bool.or_eq_true, beq_iff_eq] at hkeep
            rcases hkeep with hk | hk
            · rw [halnum] at hk; cases hk
            · exact hk
      rw [← hlow, hdash]
      rfl
    have hany : (kebabPipeline s).any isLowerOrDigit = false := by
      cases ha : (kebabPipeline s).any isLowerOrDigit with
      | false => rfl
      | true =>
        rcases List.any_eq_true.mp ha with ⟨c, hc, hp⟩
        rw [hchars c hc] at hp
        cases hp
    rw [hcase, htr, if_neg hempf,
      if_neg (by rw [hany]; exact fun hh => Bool.noConfusion hh)]
    rfl
  · show Except.ok (dotString s) = .ok []
    congr 1
    have hform : dotString s =
        (if (jsTrim s).isEmpty then []
         else dotAfterInsert (insertDots (jsTrim s))) := rfl
    rw [hform, htr, if_neg hempf]
    rw [insertDots_eq_self fun c hc => not_upper_of_not_alnum (hpunct c hc).1]
    have hdots2 : ∀ c ∈ replaceRuns (fun c => !isDotKeep c) '.' s, c = '.' := by
      intro c hc
      rcases mem_replaceRunsGo hc with h | ⟨hm, hp⟩
      · exact h
      · have hp' : (!isDotKeep c) = false := hp
        have hk : isDotKeep c = true := by
          cases hkk : isDotKeep c with
          | true => rfl
          | false => rw [hkk] at hp'; cases hp'
        simp only [isDotKeep, Bool.or_eq_true, beq_iff_eq] at hk
        rcases hk with hk | hk
        · rw [(hpunct c hm).1] at hk; cases hk
        · exact hk
    have hdots3 : ∀ c ∈ replaceRuns (fun c => c == '.') '.'
        (replaceRuns (fun c => !isDotKeep c) '.' s), c = '.' := by
      intro c hc
      rcases mem_replaceRunsGo hc with h | ⟨hm, _⟩
      · exact h
      · exact hdots2 c hm
    have hstrip : dotStageThree s = [] := stripDots_all_dots hdots3
    have hif : dotAfterInsert s =
        (if (dotStageThree s).isEmpty then []
         else joinDots (((splitCharwise (fun c => c == '.')
           (dotStageThree s)).filter (fun w => !w.isEmpty)).map lowerAll)) := rfl
    rw [hif, hstrip]
    rfl
  · have hform : camelString s =
        (if (jsTrim s).isEmpty then []
         else if !((jsTrim s).any isSepChar) then
           (if (jsTrim s).any isAsciiLetter && (jsTrim s == upperAll (jsTrim s))
            then lowerAll (jsTrim s) else jsTrim s)
         else
           match jsSplitFilter isSepChar (jsTrim s) with
           | [] => []
           | first :: rest => lowerAll first ++ concatAll (rest.map capSeg)) := rfl
    constructor
    · intro hcam
      by_contra hnotall
      push_neg at hnotall
      obtain ⟨c, hc, h1, h2⟩ := hnotall
      have hsepc : isSepChar c = false := by
        cases hsc : isSepChar c with
        | false => rfl
        | true =>
          rcases isSepChar_iff.mp hsc with hw | h95 | h45
          · rw [(hpunct c hc).2] at hw; cases hw
          · exact absurd (char_eq_of_toNat_eq (by rw [h95]; rfl)) h1
          · exact absurd (char_eq_of_toNat_eq (by rw [h45]; rfl)) h2
      have hcam' : camelString s = [] := Except.ok.inj hcam
      rw [hform, htr, if_neg hempf] at hcam'
      cases hanysep : s.any isSepChar with
      | false =>
        rw [if_pos (show (!s.any isSepChar) = true by rw [hanysep]; rfl)] at hcam'
        have hlet : s.any isAsciiLetter = false := by
          cases hl : s.any isAsciiLetter with
          | false => rfl
          | true =>
            rcases List.any_eq_true.mp hl with ⟨d, hd, hdl⟩
            have hda : isAsciiAlnum d = true := by
              simp only [isAsciiAlnum, hdl, Bool.true_or]
            rw [(hpunct d hd).1] at hda
            cases hda
        rw [if_neg (show ¬((s.any isAsciiLetter && (s == upperAll s)) = true) from by
          rw [hlet]; exact fun hh => Bool.noConfusion hh)] at hcam'
        exact hne hcam'
      | true =>
        rw [if_neg (show ¬((!s.any isSepChar) = true) from by
          rw [hanysep]; exact fun hh => Bool.noConfusion hh)] at hcam'
        cases hS : jsSplitFilter isSepChar s with
        | nil => exact absurd hS (jsSplitFilter_ne_nil_of_mem hc hsepc)
        | cons first rest =>
          rw [hS] at hcam'
          have hfmem : first ∈ (splitCharwise isSepChar s).filter
              (fun w => !w.isEmpty) := by
            rw [show (splitCharwise isSepChar s).filter (fun w => !w.isEmpty)
              = jsSplitFilter isSepChar s from rfl, hS]
            exact List.mem_cons_self _ _
          have hfb := (List.mem_filter.mp hfmem).2
          cases hf : first with
          | nil => rw [hf] at hfb; cases hfb
          | cons a t =>
            rw [hf] at hcam'
            exact List.noConfusion hcam'
    · intro hsepchars
      have hall : ∀ c ∈ s, isSepChar c = true := by
        intro c hc
        rcases hsepchars c hc with h | h
        · rw [h]; decide
        · rw [h]; decide
      show Except.ok (camelString s) = .ok []
      congr 1
      rw [hform, htr, if_neg hempf]
      have hanysep : s.any isSepChar = true := by
        cases s with
        | nil => exact absurd rfl hne
        | cons c t => simp [List.any_cons, hall c (List.mem_cons_self _ _)]
      rw [if_neg (by rw [hanysep]; exact fun hh => Bool.noConfusion hh)]
      rw [jsSplitFilter_all_sep hall]

theorem claim_C5_witness :
    isGenErr (toKebabCase (.vstr "--".toList)) = true ∧
    toDotCase (.vstr "--".toList) = .ok [] ∧
    toCamelCase (.vstr "--".toList) = .ok [] := by
  have h := claim_C5_punct_only "--".toList (by decide) (by decide)
  exact ⟨h.1, h.2.1, h.2.2.mpr (by decide)⟩

/-- C1 is false as stated: `toKebabCase('-a')` returns `'-a'`, a non-empty
result with a leading hyphen — the pipeline never strips a leading or
trailing hyphen. -/
theorem claim_C1_cex :
    toKebabCase (.vstr "-a".toList) = .ok (some "-a".toList) ∧
    ("-a".toList).head? = some '-' ∧ "-a".toList ≠ [] :=
  ⟨by decide, by decide, by decide⟩

/-- C1 (amended): every string returned by `toKebabCase` consists only of
lowercase ASCII letters, ASCII digits and hyphens, and never contains two
consecutive hyphens.  (A single leading or trailing hyphen can occur, cf.
the counterexample.) -/
theorem claim_C1_kebab_alphabet (s r : List Char)
    (h : toKebabCase (.vstr s) = .ok (some r)) (hne : r ≠ []) :
    (∀ c ∈ r, isKebabLower c = true) ∧
    List.Chain' (fun a b => ¬(a = '-' ∧ b = '-')) r := by
  have hcase : toKebabCase (.vstr s) =
      (if (jsTrim s).isEmpty then .ok (some [])
       else if (kebabPipeline (jsTrim s)).any isLowerOrDigit then
         .ok (some (kebabPipeline (jsTrim s)))
       else .error
         (.genError "Input cannot be converted to a valid kebab-case string")) := rfl
  rw [hcase] at h
  by_cases h1 : (jsTrim s).isEmpty = true
  · rw [if_pos h1] at h
    exact absurd (Option.some.inj (Except.ok.inj h)).symm hne
  · rw [if_neg h1] at h
    by_cases h2 : (kebabPipeline (jsTrim s)).any isLowerOrDigit = true
    · rw [if_pos h2] at h
      have hr : r = kebabPipeline (jsTrim s) :=
        (Option.some.inj (Except.ok.inj h)).symm
      subst hr
      constructor
      · intro c hc
        unfold kebabPipeline lowerAll at hc
        rcases List.mem_map.mp hc with ⟨c0, hc0, hlow⟩
        have hkeep : isKebabKeep c0 = true := by
          rcases mem_replaceRunsGo hc0 with h0 | ⟨h0m, _⟩
          · rw [h0]; decide
          · exact (List.mem_filter.mp h0m).2
        rw [← hlow]
        exact kebabLower_of_keep hkeep
      · unfold kebabPipeline lowerAll
        rw [List.chain'_map]
        apply List.Chain'.imp ?_ (chain'_replaceRunsGo (fun c => c == '-') '-'
          ((replaceRuns isJsWhitespace '-' (jsTrim s)).filter isKebabKeep) false)
        intro a b hab hcon
        apply hab
        constructor
        · rw [lowerChar_dash hcon.1]; rfl
        · rw [lowerChar_dash hcon.2]; rfl
    · rw [if_neg h2] at h
      exact Except.noConfusion h

theorem claim_C1_witness :
    toKebabCase (.vstr "A b".toList) = .ok (some "a-b".toList) ∧
    ((∀ c ∈ "a-b".toList, isKebabLower c = true) ∧
     List.Chain' (fun a b => ¬(a = '-' ∧ b = '-')) "a-b".toList) :=
  ⟨by decide,
   claim_C1_kebab_alphabet "A b".toList "a-b".toList (by decide) (by decide)⟩

/-- The output of `dotAfterInsert` is well-formed: only lowercase letters,
digits and dots, no leading, trailing or doubled dot. -/
theorem dotAfterInsert_wf (t : List Char) :
    (∀ c ∈ dotAfterInsert t, isDotLower c = true) ∧
    (dotAfterInsert t).head? ≠ some '.' ∧
    (dotAfterInsert t).getLast? ≠ some '.' ∧
    List.Chain' (fun a b => ¬(a = '.' ∧ b = '.')) (dotAfterInsert t) := by
  have hs2 : ∀ c ∈ replaceRuns (fun c => !isDotKeep c) '.' t, isDotKeep c = true := by
    intro c hc
    rcases mem_replaceRunsGo hc with h | ⟨_, hp⟩
    · rw [h]; decide
    · have hp' : (!isDotKeep c) = false := hp
      cases hk : isDotKeep c with
      | true => rfl
      | false => rw [hk] at hp'; cases hp'
  have hs3 : ∀ c ∈ dotStageThree t, isDotKeep c = true := by
    intro c hc
    have hc2 := mem_stripDots hc
    rcases mem_replaceRunsGo hc2 with h | ⟨hm, _⟩
    · rw [h]; decide
    · exact hs2 c hm
  have hif : dotAfterInsert t =
      (if (dotStageThree t).isEmpty then []
       else joinDots (((splitCharwise (fun c => c == '.')
         (dotStageThree t)).filter (fun w => !w.isEmpty)).map lowerAll)) := rfl
  by_cases h3 : (dotStageThree t).isEmpty = true
  · rw [hif, if_pos h3]
    exact ⟨by simp, by simp, by simp, by simp⟩
  · rw [hif, if_neg h3]
    apply joinDots_wf
    intro w hw
    rcases List.mem_map.mp hw with ⟨w0, hw0, hww⟩
    have hw0f := List.mem_filter.mp hw0
    constructor
    · rw [← hww]
      cases w0 with
      | nil => cases (by exact hw0f.2 : (!(List.isEmpty ([] : List Char))) = true)
      | cons c0 t0 => simp [lowerAll]
    · intro c hc
      rw [← hww] at hc
      rcases List.mem_map.mp hc with ⟨c0, hc0, hcc⟩
      have hS3 := mem_of_mem_splitCharwise hw0f.1 hc0
      have hnd := sep_free_splitCharwise hw0f.1 hc0
      have hk := hs3 c0 hS3
      have halnum : isAsciiAlnum c0 = true := by
        simp only [isDotKeep, Bool.or_eq_true] at hk
        rcases hk with hk | hk
        · exact hk
        · rw [hk] at hnd; cases hnd
      rw [← hcc]
      exact lowerChar_isLowerOrDigit halnum

/-- C7: every non-empty string returned by `toDotCase` contains only
lowercase ASCII letters, digits and dots, and has no leading dot, no
trailing dot and no two consecutive dots. -/
theorem claim_C7_dot_wf (s r : List Char)
    (h : toDotCase (.vstr s) = .ok r) (hne : r ≠ []) :
    (∀ c ∈ r, isDotLower c = true) ∧
    r.head? ≠ some '.' ∧
    r.getLast? ≠ some '.' ∧
    List.Chain' (fun a b => ¬(a = '.' ∧ b = '.')) r := by
  have hr : dotString s = r := Except.ok.inj h
  subst hr
  have hform : dotString s =
      (if (jsTrim s).isEmpty then []
       else dotAfterInsert (insertDots (jsTrim s))) := rfl
  by_cases h1 : (jsTrim s).isEmpty = true
  · rw [hform, if_pos h1] at hne
    exact absurd rfl hne
  · rw [hform, if_neg h1]
    exact dotAfterInsert_wf (insertDots (jsTrim s))

theorem claim_C7_witness :
    toDotCase (.vstr "firstName".toList) = .ok "first.name".toList ∧
    ((∀ c ∈ "first.name".toList, isDotLower c = true) ∧
     ("first.name".toList).head? ≠ some '.' ∧
     ("first.name".toList).getLast? ≠ some '.' ∧
     List.Chain' (fun a b => ¬(a = '.' ∧ b = '.')) "first.name".toList) :=
  ⟨by decide,
   claim_C7_dot_wf "firstName".toList "first.name".toList (by decide) (by decide)⟩

end CaseConv
